import Mathlib

/-!
Verification development for the vdbtest repository: shallow embeddings of
the workload-file rewriter (vdbconfig.py), the adaptive controller's latency
comparison (vdbtest.py), the agent engine (NetJobsAgent.py) and the scheduler
engine (NetJobs.py), together with theorems settling the specification claims.

Lines of text are modelled as lists of characters; Python dictionaries keyed
by strings are modelled as association lists; machine integers are Lean Int
(Python integers are unbounded, so no modular reduction is needed).
-/

namespace Vdbconfig

/-- Embedding of the character loop of vdbconfig.tokenize: scan the line,
splitting into comma-separated tokens, where a comma inside parentheses does
not split; depth is the size of the Python paren stack (only opening parens
are pushed, so the stack is fully described by its size).  Returns none where
the Python code raises (a close paren at depth 0, or a nonzero depth at end
of line). -/
def tokenizeAux : List Char → Nat → List Char → List (List Char) → Option (List (List Char))
  | [], depth, current, tokens =>
      if depth = 0 then some (tokens ++ [current]) else none
  | c :: cs, depth, current, tokens =>
      if c = ',' ∧ depth = 0 then
        tokenizeAux cs depth [] (tokens ++ [current])
      else if c = '(' then
        tokenizeAux cs (depth + 1) (current ++ [c]) tokens
      else if c = ')' then
        if depth = 0 then none
        else tokenizeAux cs (depth - 1) (current ++ [c]) tokens
      else
        tokenizeAux cs depth (current ++ [c]) tokens

/-- Embedding of Python t.split of a token on the equals sign: splits on every
equals sign (Python str.split splits on all occurrences). -/
def splitEq : List Char → List (List Char)
  | [] => [[]]
  | c :: cs =>
      if c = '=' then [] :: splitEq cs
      else
        match splitEq cs with
        | [] => [[c]]
        | t :: ts => (c :: t) :: ts

/-- Embedding of vdbconfig.tokenize: comma-tokenize the line, then split each
token on the equals sign. -/
def tokenize (line : List Char) : Option (List (List (List Char))) :=
  (tokenizeAux line 0 [] []).map (fun ts => ts.map splitEq)

/-- Key of a token after the equals-sign split (token[0] in the source). -/
def tokenKey (t : List Char) : List Char := (splitEq t).headD []

/-- Value of a token after the equals-sign split (token[1] in the source). -/
def tokenVal (t : List Char) : List Char := (splitEq t).getD 1 []

/-- Embedding of one iteration of the output loop of vdbconfig.makeNewConfig:
an empty token list writes nothing; a token with no equals sign is written
verbatim with no separator; otherwise the first two parts are written as
key=value (parts beyond the second are dropped), with the value replaced by
the new IO rate when the key is iorate, followed by a comma unless this is
the last token of the line. -/
def writeToken (newIORate : Int) (isLast : Bool) : List (List Char) → List Char
  | [] => []
  | [t] => t
  | key :: value :: _ =>
      let v := if key = "iorate".data then (toString newIORate).data else value
      key ++ '=' :: (v ++ if isLast then [] else [','])

/-- Embedding of the output loop of vdbconfig.makeNewConfig over the token
list of one line. -/
def writeTokens (newIORate : Int) : List (List (List Char)) → List Char
  | [] => []
  | [p] => writeToken newIORate true p
  | p :: q :: ps => writeToken newIORate false p ++ writeTokens newIORate (q :: ps)

/-- Embedding of the comment test of vdbconfig.makeNewConfig: the regex
matches exactly the lines whose first character is a slash, hash or star. -/
def isCommentLine : List Char → Bool
  | [] => false
  | c :: _ => c == '/' || c == '#' || c == '*'

/-- Embedding of the per-line behaviour of vdbconfig.makeNewConfig: comment
lines pass through unchanged; other lines are tokenized (none when tokenize
raises) and re-serialized by the output loop. -/
def processLine (newIORate : Int) (line : List Char) : Option (List Char) :=
  if isCommentLine line then some line
  else
    match tokenize line with
    | none => none
    | some tokens => some (writeTokens newIORate tokens)

/-- Embedding of vdbconfig.makeNewConfig over a whole file, given as its list
of lines (each line carrying its trailing newline, as Python file iteration
yields them): the concatenated outputs, or none when any line raises. -/
def makeNewConfig (newIORate : Int) : List (List Char) → Option (List Char)
  | [] => some []
  | l :: ls =>
      match processLine newIORate l, makeNewConfig newIORate ls with
      | some out, some rest => some (out ++ rest)
      | _, _ => none

/-- Number of occurrences of a character in a line. -/
def countChar (a : Char) : List Char → Nat
  | [] => 0
  | c :: cs => (if c = a then 1 else 0) + countChar a cs

/-- Balanced parentheses, stated from the claim's wording: no prefix closes a
paren that was never opened, and every opened paren is closed by the end of
the line. -/
def balancedParens (line : List Char) : Prop :=
  (∀ p ∈ line.inits, countChar ')' p ≤ countChar '(' p) ∧
    countChar '(' line = countChar ')' line

/-- Depth-tracking scan of a line, isolating exactly the raise behaviour of
tokenize: false where the Python code would raise for mismatched
parentheses. -/
def scanOk : Nat → List Char → Bool
  | d, [] => d == 0
  | d, c :: cs =>
      if c = '(' then scanOk (d + 1) cs
      else if c = ')' then (if d = 0 then false else scanOk (d - 1) cs)
      else scanOk d cs

/-- Serialization of comma tokens back into a line. -/
def joinTok : List (List Char) → List Char
  | [] => []
  | [t] => t
  | t :: u :: ts => t ++ ',' :: joinTok (u :: ts)

/-- Serialization of the equals-sign parts back into a token. -/
def joinEq : List (List Char) → List Char
  | [] => []
  | [t] => t
  | t :: u :: ts => t ++ '=' :: joinEq (u :: ts)

lemma tokenizeAux_eq_none_iff_scanOk (l : List Char) :
    ∀ (d : Nat) (cur : List Char) (acc : List (List Char)),
      tokenizeAux l d cur acc = none ↔ scanOk d l = false := by
  induction l with
  | nil =>
      intro d cur acc
      rcases eq_or_ne d 0 with h | h <;> simp [tokenizeAux, scanOk, h]
  | cons c cs ih =>
      intro d cur acc
      by_cases hcomma : c = ',' ∧ d = 0
      · obtain ⟨hc, hd⟩ := hcomma
        subst hc
        subst hd
        rw [tokenizeAux, if_pos ⟨rfl, rfl⟩, scanOk]
        simp only [reduceIte]
        exact ih 0 [] (acc ++ [cur])
      · by_cases hop : c = '('
        · subst hop
          rw [tokenizeAux, if_neg hcomma, if_pos rfl, scanOk, if_pos rfl]
          exact ih (d + 1) (cur ++ ['(']) acc
        · by_cases hcl : c = ')'
          · subst hcl
            rcases eq_or_ne d 0 with hd | hd
            · subst hd
              rw [tokenizeAux, if_neg hcomma, if_neg hop, if_pos rfl, if_pos rfl]
              simp [scanOk]
            · rw [tokenizeAux, if_neg hcomma, if_neg hop, if_pos rfl, if_neg hd]
              rw [scanOk]
              simp only [reduceCtorEq, reduceIte, if_neg hop, if_neg hd]
              exact ih (d - 1) (cur ++ [')']) acc
          · rw [tokenizeAux, if_neg hcomma, if_neg hop, if_neg hcl]
            rw [scanOk, if_neg hop, if_neg hcl]
            exact ih d (cur ++ [c]) acc

lemma countChar_cons (a c : Char) (cs : List Char) :
    countChar a (c :: cs) = (if c = a then 1 else 0) + countChar a cs := rfl

lemma mem_inits_cons {c : Char} {cs : List Char} {p : List Char} :
    p ∈ (c :: cs).inits ↔ p = [] ∨ ∃ q ∈ cs.inits, p = c :: q := by
  rw [List.inits_cons]
  simp only [List.mem_cons, List.mem_map]
  constructor
  · rintro (rfl | ⟨q, hq, rfl⟩)
    · exact Or.inl rfl
    · exact Or.inr ⟨q, hq, rfl⟩
  · rintro (rfl | ⟨q, hq, rfl⟩)
    · exact Or.inl rfl
    · exact Or.inr ⟨q, hq, rfl⟩

lemma scanOk_iff_counts (l : List Char) :
    ∀ d : Nat, scanOk d l = true ↔
      ((∀ p ∈ l.inits, countChar ')' p ≤ d + countChar '(' p) ∧
        d + countChar '(' l = countChar ')' l) := by
  induction l with
  | nil =>
      intro d
      simp [scanOk, countChar]
  | cons c cs ih =>
      intro d
      have key : ∀ d' : Nat,
          (d + (if c = '(' then 1 else 0) = (if c = ')' then 1 else 0) + d') →
          (scanOk d' cs = true ↔
            ((∀ p ∈ (c :: cs).inits, countChar ')' p ≤ d + countChar '(' p) ∧
              d + countChar '(' (c :: cs) = countChar ')' (c :: cs))) := by
        intro d' hd
        rw [ih d']
        constructor
        · rintro ⟨h1, h2⟩
          constructor
          · intro p hp
            rcases mem_inits_cons.mp hp with rfl | ⟨q, hq, rfl⟩
            · simp [countChar]
            · have := h1 q hq
              rw [countChar_cons, countChar_cons]
              omega
          · rw [countChar_cons, countChar_cons]
            omega
        · rintro ⟨h1, h2⟩
          constructor
          · intro q hq
            have := h1 (c :: q) (mem_inits_cons.mpr (Or.inr ⟨q, hq, rfl⟩))
            rw [countChar_cons, countChar_cons] at this
            omega
          · rw [countChar_cons, countChar_cons] at h2
            omega
      by_cases hop : c = '('
      · subst hop
        rw [scanOk, if_pos rfl]
        exact key (d + 1)
          (by rw [if_pos rfl, if_neg (show ¬ ('(' : Char) = ')' by decide)]; omega)
      · by_cases hcl : c = ')'
        · subst hcl
          rw [scanOk, if_neg (show ¬ (')' : Char) = '(' by decide), if_pos rfl]
          rcases eq_or_ne d 0 with hd | hd
          · subst hd
            rw [if_pos rfl]
            simp only [Bool.false_eq_true, false_iff]
            rintro ⟨h1, _⟩
            have := h1 [')'] (mem_inits_cons.mpr (Or.inr ⟨[], by simp [List.mem_inits], rfl⟩))
            simp [countChar] at this
          · rw [if_neg hd]
            exact key (d - 1)
              (by rw [if_neg (show ¬ (')' : Char) = '(' by decide), if_pos rfl]; omega)
        · rw [scanOk, if_neg hop, if_neg hcl]
          exact key d (by rw [if_neg hop, if_neg hcl]; omega)

lemma tokenize_eq_none_iff (line : List Char) :
    tokenize line = none ↔ ¬ balancedParens line := by
  have h1 := tokenizeAux_eq_none_iff_scanOk line 0 [] []
  have h2 := scanOk_iff_counts line 0
  unfold tokenize balancedParens
  rcases h : tokenizeAux line 0 [] [] with _ | ts
  · rw [h] at h1
    simp only [true_iff] at h1
    have hs : ¬ scanOk 0 line = true := by simp [h1]
    rw [h2] at hs
    simpa using hs
  · rw [h] at h1
    simp only [reduceCtorEq, false_iff] at h1
    have hs : scanOk 0 line = true := by
      rcases Bool.eq_false_or_eq_true (scanOk 0 line) with hb | hb
      · exact hb
      · exact absurd hb h1
    rw [h2] at hs
    simpa using hs

lemma joinTok_cons_of_ne_nil (t : List Char) {ts : List (List Char)} (h : ts ≠ []) :
    joinTok (t :: ts) = t ++ ',' :: joinTok ts := by
  cases ts with
  | nil => exact absurd rfl h
  | cons u us => rfl

lemma joinTok_snoc_pair (acc : List (List Char)) (x y : List Char) :
    joinTok (acc ++ [x, y]) = joinTok (acc ++ [x]) ++ ',' :: y := by
  induction acc with
  | nil => rfl
  | cons a as ih =>
      rw [List.cons_append, List.cons_append, joinTok_cons_of_ne_nil a (by simp),
        joinTok_cons_of_ne_nil a (by simp), ih]
      simp

lemma joinTok_snoc_append (acc : List (List Char)) (x s : List Char) :
    joinTok (acc ++ [x ++ s]) = joinTok (acc ++ [x]) ++ s := by
  induction acc with
  | nil => rfl
  | cons a as ih =>
      rw [List.cons_append, List.cons_append, joinTok_cons_of_ne_nil a (by simp),
        joinTok_cons_of_ne_nil a (by simp), ih]
      simp

lemma tokenizeAux_join (l : List Char) :
    ∀ (d : Nat) (cur : List Char) (acc ts : List (List Char)),
      tokenizeAux l d cur acc = some ts → joinTok ts = joinTok (acc ++ [cur]) ++ l := by
  induction l with
  | nil =>
      intro d cur acc ts h
      rw [tokenizeAux] at h
      by_cases hd : d = 0
      · rw [if_pos hd] at h
        cases h
        simp
      · rw [if_neg hd] at h
        cases h
  | cons c cs ih =>
      intro d cur acc ts h
      rw [tokenizeAux] at h
      by_cases hcomma : c = ',' ∧ d = 0
      · rw [if_pos hcomma] at h
        obtain ⟨hc, hd⟩ := hcomma
        subst hc
        have hrec := ih d [] (acc ++ [cur]) ts h
        have hsnoc : (acc ++ [cur]) ++ [([] : List Char)] = acc ++ [cur, []] := by simp
        rw [hrec, hsnoc, joinTok_snoc_pair]
        simp
      · by_cases hop : c = '('
        · subst hop
          rw [if_neg hcomma, if_pos rfl] at h
          have hrec := ih (d + 1) (cur ++ ['(']) acc ts h
          rw [hrec, joinTok_snoc_append]
          simp
        · by_cases hcl : c = ')'
          · subst hcl
            rw [if_neg hcomma, if_neg hop, if_pos rfl] at h
            by_cases hd : d = 0
            · rw [if_pos hd] at h
              cases h
            · rw [if_neg hd] at h
              have hrec := ih (d - 1) (cur ++ [')']) acc ts h
              rw [hrec, joinTok_snoc_append]
              simp
          · rw [if_neg hcomma, if_neg hop, if_neg hcl] at h
            have hrec := ih d (cur ++ [c]) acc ts h
            rw [hrec, joinTok_snoc_append]
            simp

lemma splitEq_ne_nil (t : List Char) : splitEq t ≠ [] := by
  cases t with
  | nil => simp [splitEq]
  | cons c cs =>
      rw [splitEq]
      by_cases hc : c = '='
      · rw [if_pos hc]
        simp
      · rw [if_neg hc]
        rcases h : splitEq cs with _ | ⟨u, us⟩ <;> simp

lemma joinEq_cons_of_ne_nil (t : List Char) {ts : List (List Char)} (h : ts ≠ []) :
    joinEq (t :: ts) = t ++ '=' :: joinEq ts := by
  cases ts with
  | nil => exact absurd rfl h
  | cons u us => rfl

lemma joinEq_splitEq (t : List Char) : joinEq (splitEq t) = t := by
  induction t with
  | nil => rfl
  | cons c cs ih =>
      rw [splitEq]
      by_cases hc : c = '='
      · rw [if_pos hc, joinEq_cons_of_ne_nil _ (splitEq_ne_nil cs), ih, hc]
        rfl
      · rw [if_neg hc]
        rcases h : splitEq cs with _ | ⟨u, us⟩
        · exact absurd h (splitEq_ne_nil cs)
        · rw [h] at ih
          rcases us with _ | ⟨w, ws⟩
          · simp only [joinEq] at ih ⊢
            rw [ih]
          · rw [joinEq_cons_of_ne_nil _ (by simp)] at ih
            rw [joinEq_cons_of_ne_nil _ (by simp), List.cons_append, ih]

lemma splitEq_length (t : List Char) : (splitEq t).length = countChar '=' t + 1 := by
  induction t with
  | nil => rfl
  | cons c cs ih =>
      rw [splitEq, countChar_cons]
      by_cases hc : c = '='
      · rw [if_pos hc, if_pos hc]
        simp only [List.length_cons, ih]
        omega
      · rw [if_neg hc, if_neg hc]
        rcases h : splitEq cs with _ | ⟨u, us⟩
        · exact absurd h (splitEq_ne_nil cs)
        · rw [h] at ih
          simp only [List.length_cons] at ih ⊢
          omega

lemma splitEq_pair_of_one_eq {t : List Char} (h : countChar '=' t = 1) :
    splitEq t = [tokenKey t, tokenVal t] ∧ t = tokenKey t ++ '=' :: tokenVal t := by
  have hlen : (splitEq t).length = 2 := by rw [splitEq_length, h]
  rcases hs : splitEq t with _ | ⟨k, _ | ⟨v, _ | ⟨w, ws⟩⟩⟩
  · exact absurd hs (splitEq_ne_nil t)
  · rw [hs] at hlen
    simp at hlen
  · have hk : tokenKey t = k := by rw [tokenKey, hs]; rfl
    have hv : tokenVal t = v := by rw [tokenVal, hs]; rfl
    have hj := joinEq_splitEq t
    rw [hs] at hj
    rw [joinEq_cons_of_ne_nil _ (by simp)] at hj
    simp only [joinEq] at hj
    exact ⟨by rw [hk, hv], by rw [hk, hv, hj]⟩
  · rw [hs] at hlen
    simp at hlen

lemma writeToken_eq {rate : Int} {t : List Char} (isLast : Bool)
    (h1 : countChar '=' t = 1)
    (h2 : tokenKey t = "iorate".data → tokenVal t = (toString rate).data) :
    writeToken rate isLast (splitEq t) = t ++ (if isLast then [] else [',']) := by
  obtain ⟨hs, ht⟩ := splitEq_pair_of_one_eq h1
  rw [hs]
  show tokenKey t ++ '=' ::
      ((if tokenKey t = "iorate".data then (toString rate).data else tokenVal t) ++
        if isLast then [] else [',']) = t ++ (if isLast then [] else [','])
  by_cases hk : tokenKey t = "iorate".data
  · rw [if_pos hk, ← h2 hk]
    conv_rhs => rw [ht]
    simp
  · rw [if_neg hk]
    conv_rhs => rw [ht]
    simp

lemma writeTokens_join (rate : Int) : ∀ ts : List (List Char),
    (∀ t ∈ ts, countChar '=' t = 1) →
    (∀ t ∈ ts, tokenKey t = "iorate".data → tokenVal t = (toString rate).data) →
    writeTokens rate (ts.map splitEq) = joinTok ts := by
  intro ts
  induction ts with
  | nil =>
      intro _ _
      rfl
  | cons t ts ih =>
      intro h1 h2
      rcases ts with _ | ⟨u, us⟩
      · simp only [List.map_cons, List.map_nil, writeTokens]
        rw [writeToken_eq true (h1 t (by simp)) (h2 t (by simp))]
        simp [joinTok]
      · simp only [List.map_cons, writeTokens]
        rw [writeToken_eq false (h1 t (by simp)) (h2 t (by simp))]
        have ihh := ih (fun x hx => h1 x (List.mem_cons_of_mem _ hx))
          (fun x hx => h2 x (List.mem_cons_of_mem _ hx))
        simp only [List.map_cons] at ihh
        rw [ihh, @joinTok_cons_of_ne_nil t (u :: us) (by simp)]
        simp

end Vdbconfig

/-- C4 counterexample: rewriting the one-line file consisting of the line
containing a comma-token without an equals sign followed by the iorate token,
using the file's existing iorate value 5, does not reproduce the file: the
comma after the first token and the trailing newline (which is part of the
iorate token's parsed value) are both lost. -/
theorem c4_counterexample :
    Vdbconfig.makeNewConfig 5 [("a,iorate=5\n".data)] = some ("aiorate=5".data) ∧
    "aiorate=5".data ≠ "a,iorate=5\n".data :=
  ⟨by decide, by decide⟩

/-- C4 (amended): rewriting a non-comment line reproduces it byte for byte
provided every comma-token of the line contains exactly one equals sign and
every token whose key is iorate carries exactly the decimal representation of
the new rate as its value (rewriting with the existing iorate value); comment
lines always pass through unchanged.  Tokens with no equals sign lose their
separating comma, tokens with two or more equals signs lose their later
parts, and an iorate token in final position loses the trailing newline, so
these hypotheses cannot be dropped. -/
theorem c4_roundtrip_amended (rate : Int) (line : List Char) (ts : List (List Char))
    (hts : Vdbconfig.tokenizeAux line 0 [] [] = some ts)
    (h1 : ∀ t ∈ ts, Vdbconfig.countChar '=' t = 1)
    (h2 : ∀ t ∈ ts, Vdbconfig.tokenKey t = "iorate".data →
      Vdbconfig.tokenVal t = (toString rate).data) :
    Vdbconfig.processLine rate line = some line := by
  by_cases hc : Vdbconfig.isCommentLine line
  · rw [Vdbconfig.processLine, if_pos hc]
  · rw [Vdbconfig.processLine, if_neg hc, Vdbconfig.tokenize, hts]
    simp only [Option.map_some']
    rw [Vdbconfig.writeTokens_join rate ts h1 h2]
    have hjoin := Vdbconfig.tokenizeAux_join line 0 [] [] ts hts
    simp only [List.nil_append, Vdbconfig.joinTok] at hjoin
    rw [hjoin]

/-- Witness for the amended C4 theorem: a concrete well-formed line round
trips byte for byte. -/
theorem c4_roundtrip_amended_witness :
    Vdbconfig.processLine 7 ("wd=wd1,iorate=7".data) = some ("wd=wd1,iorate=7".data) :=
  c4_roundtrip_amended 7 ("wd=wd1,iorate=7".data) ["wd=wd1".data, "iorate=7".data]
    (by decide) (by decide) (by decide)

/-- C10: a non-comment line makes the rewriter fail exactly when its
parentheses are unbalanced (a close paren with no matching open paren, or an
unclosed open paren at end of line); comment lines never fail, lines with
balanced parentheses never raise, and a file rewrite fails exactly when it
contains a failing line. -/
theorem c10_unbalanced_parens_error (rate : Int) :
    (∀ line : List Char, Vdbconfig.processLine rate line = none ↔
      (Vdbconfig.isCommentLine line = false ∧ ¬ Vdbconfig.balancedParens line)) ∧
    (∀ lines : List (List Char), Vdbconfig.makeNewConfig rate lines = none ↔
      ∃ l ∈ lines, Vdbconfig.isCommentLine l = false ∧ ¬ Vdbconfig.balancedParens l) := by
  have hline : ∀ line : List Char, Vdbconfig.processLine rate line = none ↔
      (Vdbconfig.isCommentLine line = false ∧ ¬ Vdbconfig.balancedParens line) := by
    intro line
    rw [Vdbconfig.processLine]
    by_cases hc : Vdbconfig.isCommentLine line
    · rw [if_pos hc]
      simp [hc]
    · rw [if_neg hc]
      rcases h : Vdbconfig.tokenize line with _ | ts
      · have hb := (Vdbconfig.tokenize_eq_none_iff line).mp h
        simp [hb, Bool.eq_false_iff, hc]
      · have hb : ¬ ¬ Vdbconfig.balancedParens line := by
          intro hnb
          rw [← Vdbconfig.tokenize_eq_none_iff line] at hnb
          rw [h] at hnb
          cases hnb
        simp [hb]
  refine ⟨hline, ?_⟩
  intro lines
  induction lines with
  | nil => simp [Vdbconfig.makeNewConfig]
  | cons l ls ih =>
      rw [Vdbconfig.makeNewConfig]
      rcases hpl : Vdbconfig.processLine rate l with _ | out
      · simp only [true_iff]
        exact ⟨l, List.mem_cons_self l ls, (hline l).mp hpl⟩
      · rcases hml : Vdbconfig.makeNewConfig rate ls with _ | rest
        · simp only [true_iff]
          obtain ⟨x, hx, hbad⟩ := ih.mp hml
          exact ⟨x, List.mem_cons_of_mem _ hx, hbad⟩
        · simp only [reduceCtorEq, false_iff]
          rintro ⟨x, hx, hbad⟩
          rcases List.mem_cons.mp hx with rfl | hx
          · rw [← hline x] at hbad
            rw [hpl] at hbad
            cases hbad
          · have : Vdbconfig.makeNewConfig rate ls = none := ih.mpr ⟨x, hx, hbad⟩
            rw [hml] at this
            cases this

namespace Vdbtest

/-- Embedding of the loop of vdbtest.compareResultLatencies over the list of
per-target response times: the first branch returns early only when fuzziness
is exactly zero and a response exceeds the target; otherwise a response
outside the fuzziness band merely clears the maybeDone flag and the loop
continues.  Response times and latencies are modelled as rationals. -/
def compareAux (targetLatency fuzziness minLat maxLat : ℚ) :
    List ℚ → Bool → Bool × Bool
  | [], maybeDone => (true, maybeDone)
  | r :: rs, maybeDone =>
      if fuzziness = 0 ∧ r > targetLatency then (false, false)
      else if r < minLat ∨ r > maxLat then
        compareAux targetLatency fuzziness minLat maxLat rs false
      else
        compareAux targetLatency fuzziness minLat maxLat rs maybeDone

/-- Embedding of vdbtest.compareResultLatencies: returns the pair
(allPassed, maybeDone) as used by vdbtest.run. -/
def compareResultLatencies (resps : List ℚ) (targetLatency fuzziness : ℚ) :
    Bool × Bool :=
  compareAux targetLatency fuzziness (targetLatency * (1 - fuzziness))
    (targetLatency * (1 + fuzziness)) resps true

lemma compareAux_fst_of_fuzziness_ne_zero (L z a b : ℚ) (hz : z ≠ 0) :
    ∀ (rs : List ℚ) (md : Bool), (compareAux L z a b rs md).1 = true := by
  intro rs
  induction rs with
  | nil => intro md; rfl
  | cons r rs ih =>
      intro md
      rw [compareAux, if_neg (by simp [hz])]
      by_cases hr : r < a ∨ r > b
      · rw [if_pos hr]
        exact ih false
      · rw [if_neg hr]
        exact ih md

lemma compareAux_fst_of_fuzziness_zero (L a b : ℚ) :
    ∀ (rs : List ℚ) (md : Bool),
      (compareAux L 0 a b rs md).1 = true ↔ ∀ r ∈ rs, r ≤ L := by
  intro rs
  induction rs with
  | nil => intro md; simp [compareAux]
  | cons r rs ih =>
      intro md
      rw [compareAux]
      by_cases hr : r > L
      · rw [if_pos ⟨rfl, hr⟩]
        simp only [Bool.false_eq_true, false_iff]
        intro hall
        exact absurd (hall r (by simp)) (by simpa using hr)
      · rw [if_neg (by simp [hr])]
        by_cases hb : r < a ∨ r > b
        · rw [if_pos hb, ih false]
          simp [not_lt.mp hr]
        · rw [if_neg hb, ih md]
          simp [not_lt.mp hr]

end Vdbtest

/-- C2 counterexample: with target latency 10, fuzziness one half (inside the
unit interval) and a single target whose response time 100 lies far outside
the band from 5 to 15, the controller's latency comparison still returns
allPassed = true, where the claim requires false. -/
theorem c2_counterexample :
    (Vdbtest.compareResultLatencies [100] 10 (1/2)).1 = true ∧
    ¬ ((10 : ℚ) * (1 - 1/2) ≤ 100 ∧ (100 : ℚ) ≤ 10 * (1 + 1/2)) := by
  constructor
  · norm_num [Vdbtest.compareResultLatencies, Vdbtest.compareAux]
  · intro h
    have := h.2
    norm_num at this

/-- C2 (amended): the allPassed component returned by the controller's
latency comparison equals the predicate that every response time is at most
the target latency only when fuzziness is zero; for every nonzero fuzziness
the allPassed component is always true, regardless of the response times (the
fuzziness band only governs the second, done, component). -/
theorem c2_allpassed_amended (resps : List ℚ) (targetLatency fuzziness : ℚ) :
    ((Vdbtest.compareResultLatencies resps targetLatency 0).1 = true ↔
      ∀ r ∈ resps, r ≤ targetLatency) ∧
    (fuzziness ≠ 0 →
      (Vdbtest.compareResultLatencies resps targetLatency fuzziness).1 = true) := by
  constructor
  · exact Vdbtest.compareAux_fst_of_fuzziness_zero targetLatency _ _ resps true
  · intro hz
    exact Vdbtest.compareAux_fst_of_fuzziness_ne_zero targetLatency fuzziness _ _ hz resps true

/-- Witness for the amended C2 theorem at the counterexample input. -/
theorem c2_allpassed_amended_witness :
    (Vdbtest.compareResultLatencies [100] 10 (1/2)).1 = true :=
  (c2_allpassed_amended [100] 10 (1/2)).2 (by norm_num)

namespace Agent

/-- Status strings shared by the scheduler and agent. -/
def SUCCESS_STATUS : String := "SUCCESS"

/-- Status string for a failed command. -/
def ERROR_STATUS : String := "ERROR"

/-- Status string for a timed-out command. -/
def TIMEOUT_STATUS : String := "TIMEOUT"

/-- Status string for a remotely killed command. -/
def KILLED_STATUS : String := "KILLED"

/-- Embedding of the normal-exit branch of ProcThread.send_result in
NetJobsAgent.py (the branch taken when the thread result is still NONE,
i.e. the subprocess ran to completion without being timed out or killed):
the recorded pair is (ERROR, stderr) when returncode is strictly positive or
stderr is non-empty, and (SUCCESS, stdout) otherwise. -/
def send_result (returncode : Int) (stdout stderr : String) : String × String :=
  if returncode > 0 ∨ stderr ≠ "" then (ERROR_STATUS, stderr)
  else (SUCCESS_STATUS, stdout)

/-- Wire records the agent can receive during spec-load, as dispatched by
NetJobsAgent.get_specs after tab-splitting: a name record, a command record,
a timeout record with its integer value, the READY terminator, or any
malformed or unknown record (which makes the loop break). -/
inductive Record where
  | rname (s : String)
  | rcommand (s : String)
  | rtimeout (n : Int)
  | rready
  | rinvalid

/-- State accumulated by NetJobsAgent.get_specs: the registered commands, the
registered per-command timeouts (none for a 0 record, as the source stores
Python None), and the derived global timeout sosTimeout. -/
structure SpecState where
  commands : List String
  timeouts : List (Option Int)
  sosTimeout : Int

/-- Initial spec-load state: sosTimeout starts at TIMEOUT_NONE = 0. -/
def initSpecState : SpecState := ⟨[], [], 0⟩

/-- Embedding of the sosTimeout update in NetJobsAgent.get_specs: the stored
value is replaced only when it is already nonzero and the new timeout is
larger. -/
def updateSOS (sosTimeout timeout : Int) : Int :=
  if sosTimeout ≠ 0 ∧ timeout > sosTimeout then timeout else sosTimeout

/-- Embedding of the receive loop of NetJobsAgent.get_specs over the sequence
of records delivered by the scheduler: stops at READY or at any invalid
record, registers commands and timeouts, and threads sosTimeout through
updateSOS. -/
def get_specs : List Record → SpecState → SpecState
  | [], st => st
  | Record.rready :: _, st => st
  | Record.rinvalid :: _, st => st
  | Record.rname _ :: rs, st => get_specs rs st
  | Record.rcommand c :: rs, st =>
      get_specs rs { st with commands := st.commands ++ [c] }
  | Record.rtimeout t :: rs, st =>
      if t = 0 then get_specs rs { st with timeouts := st.timeouts ++ [none] }
      else
        get_specs rs { st with timeouts := st.timeouts ++ [some t],
                               sosTimeout := updateSOS st.sosTimeout t }

lemma get_specs_sosTimeout_eq_zero : ∀ (rs : List Record) (st : SpecState),
    st.sosTimeout = 0 → (get_specs rs st).sosTimeout = 0 := by
  intro rs
  induction rs with
  | nil => intro st h; exact h
  | cons r rs ih =>
      intro st h
      cases r with
      | rready => exact h
      | rinvalid => exact h
      | rname s => exact ih st h
      | rcommand c => exact ih _ h
      | rtimeout t =>
          rw [get_specs]
          by_cases ht : t = 0
          · rw [if_pos ht]
            exact ih _ h
          · rw [if_neg ht]
            refine ih _ ?_
            show updateSOS st.sosTimeout t = 0
            rw [updateSOS, if_neg (by simp [h])]
            exact h

end Agent

/-- C3: contrary to the claim, the agent's derived global timeout is 0 for
every spec it can receive, because the update guard in get_specs requires the
running sosTimeout to be nonzero while it starts at 0; in particular a spec
registering a single nonzero timeout of 5 seconds still derives global
timeout 0 instead of the claimed maximum 5. -/
theorem c3_global_timeout_always_zero :
    (∀ rs : List Agent.Record,
      (Agent.get_specs rs Agent.initSpecState).sosTimeout = 0) ∧
    (Agent.get_specs [Agent.Record.rtimeout 5, Agent.Record.rready]
      Agent.initSpecState).timeouts = [some 5] := by
  constructor
  · intro rs
    exact Agent.get_specs_sosTimeout_eq_zero rs Agent.initSpecState rfl
  · rfl

/-- C7 counterexample: a subprocess that ran to completion with exit status
minus nine (killed by a signal) and empty stderr is recorded as SUCCESS by
the agent, although the claim requires ERROR for every non-zero exit status,
including negative ones. -/
theorem c7_counterexample :
    Agent.send_result (-9) "out" "" = (Agent.SUCCESS_STATUS, "out") ∧
    (-9 : Int) ≠ 0 := by
  constructor
  · rfl
  · decide

/-- C7 (amended): for a subprocess that runs to completion, the recorded
result is (SUCCESS, stdout) if and only if the exit status is at most zero
(not: equal to zero) and stderr is empty, and (ERROR, stderr) otherwise. -/
theorem c7_send_result_amended (returncode : Int) (stdout stderr : String) :
    Agent.send_result returncode stdout stderr =
      (if returncode ≤ 0 ∧ stderr = "" then (Agent.SUCCESS_STATUS, stdout)
       else (Agent.ERROR_STATUS, stderr)) := by
  by_cases hg : returncode ≤ 0 ∧ stderr = ""
  · have hcond : ¬ (returncode > 0 ∨ stderr ≠ "") := by
      rintro (hgt | hne)
      · have hle := hg.1
        omega
      · exact hne hg.2
    rw [if_pos hg, Agent.send_result, if_neg hcond]
  · have hcond : returncode > 0 ∨ stderr ≠ "" := by
      by_cases he : stderr = ""
      · left
        have hle : ¬ returncode ≤ 0 := fun hle => hg ⟨hle, he⟩
        omega
      · right
        exact he
    rw [if_neg hg, Agent.send_result, if_pos hcond]

namespace Sched

/-- Sentinel value used by the scheduler for the all-hosts minimum
(MIN_HOSTS_ALL in NetJobs.py). -/
def MIN_HOSTS_ALL : Int := -1

/-- Embedding of the per-target results dictionary created by
TestConfig.init in NetJobs.py: every command of the target's spec is mapped
to Python None (no result yet). -/
def initResults (specs : List String) : List (String × Option (String × String)) :=
  specs.map (fun c => (c, none))

/-- Embedding of ListenThread.update_incomplete_and_print in NetJobs.py: for
each command of the target's spec, the result entry is set to
(message, empty) only when the command is not a key of the results
dictionary (a membership test, not a None test). -/
def update_incomplete_and_print (message : String) (specs : List String)
    (results : List (String × Option (String × String))) :
    List (String × Option (String × String)) :=
  specs.foldl
    (fun res command =>
      if res.any (fun p => p.1 == command) then res
      else res ++ [(command, some (message, ""))])
    results

/-- Per-test session state touched by NetJobs.handle_timeout: the
testAborted flag and the timeoutsRemaining counter (Python None when
unset). -/
structure SessionState where
  testAborted : Bool
  timeoutsRemaining : Option Int
deriving DecidableEq

/-- Embedding of the timeoutsRemaining initialization in TestConfig.init:
None exactly when minHosts is the number 0, and minHosts itself otherwise
(including the ALL sentinel, which is the number minus one). -/
def initTimeoutsRemaining (minHosts : Int) : Option Int :=
  if minHosts = 0 then none else some minHosts

/-- Embedding of NetJobs.handle_timeout: a no-op once the test is aborted;
with the ALL sentinel the test aborts immediately; otherwise, with the
counter set, the scheduler aborts when the current value is below 1 (without
decrementing) and decrements otherwise. -/
def handle_timeout (minHosts : Int) (st : SessionState) : SessionState :=
  if st.testAborted then st
  else if minHosts = MIN_HOSTS_ALL then { st with testAborted := true }
  else
    match st.timeoutsRemaining with
    | none => st
    | some t =>
        if t < 1 then { st with testAborted := true }
        else { st with timeoutsRemaining := some (t - 1) }

/-- Embedding of the SUCCESS branch of ListenThread.process_result_string in
NetJobs.py: increment successesReceived, then ping every running listener
when the new count is at least minHosts. -/
def process_result_success (minHosts successesReceived : Int) : Int × Bool :=
  (successesReceived + 1, decide (successesReceived + 1 ≥ minHosts))

/-- Events emitted by NetJobs.start_agents, in program order. -/
inductive StartEvent where
  | startListener (target : String)
  | sendStart (target : String)
deriving DecidableEq

/-- Embedding of NetJobs.start_agents: the first loop creates and starts one
listener per connected target; only after it completes does the second loop
send the START record to each connection. -/
def start_agents (targets : List String) : List StartEvent :=
  targets.map StartEvent.startListener ++ targets.map StartEvent.sendStart

/-- What the agent side can answer to one record sent during prep: an echo
of some bytes, a socket timeout, or a socket error. -/
inductive Reply where
  | bytes (s : String)
  | rtimeout
  | sockError
deriving DecidableEq

/-- Outcome of the prep exchange for one target in NetJobs.prep_agents: the
scheduler process exits (sys.exit), the test's timeout policy is invoked
(handle_timeout, on socket.timeout only), or the target is prepared. -/
inductive PrepOutcome where
  | fatalExit
  | policyTimeout
  | prepared
deriving DecidableEq

/-- Embedding of the echo loop of NetJobs.prep_agents for one target: each
message in turn is sent and the reply compared byte for byte with it; a
mismatch or socket error exits the process, a socket timeout invokes the
timeout policy, and a missing reply (closed connection, empty echo) is a
mismatch. -/
def prep_exchange : List String → List Reply → PrepOutcome
  | [], _ => PrepOutcome.prepared
  | _ :: _, [] => PrepOutcome.fatalExit
  | m :: ms, r :: rs =>
      match r with
      | Reply.rtimeout => PrepOutcome.policyTimeout
      | Reply.sockError => PrepOutcome.fatalExit
      | Reply.bytes s => if s = m then prep_exchange ms rs else PrepOutcome.fatalExit

/-- The records NetJobs.prep_agents sends to one target, in program order:
the name record, then for each command its command record followed by its
timeout record, then the READY record. -/
def prep_messages (target : String) (commands : List (String × Int)) : List String :=
  ("name\t" ++ target ++ "\n") ::
    ((commands.map (fun ct =>
        ["command\t" ++ ct.1 ++ "\n", "timeout\t" ++ toString ct.2 ++ "\n"])).flatten
      ++ ["// READY //\n"])

lemma initResults_any (specs : List String) (c : String) (hc : c ∈ specs) :
    (initResults specs).any (fun p => p.1 == c) = true := by
  rw [initResults, List.any_eq_true]
  exact ⟨(c, none), List.mem_map_of_mem _ hc, by simp⟩

lemma update_incomplete_fixed (message : String) : ∀ (specs : List String)
    (res : List (String × Option (String × String))),
    (∀ c ∈ specs, res.any (fun p => p.1 == c) = true) →
    update_incomplete_and_print message specs res = res := by
  intro specs
  induction specs with
  | nil =>
      intro res _
      rfl
  | cons c cs ih =>
      intro res h
      rw [update_incomplete_and_print, List.foldl_cons, if_pos (h c (by simp))]
      exact ih res (fun x hx => h x (by simp [hx]))

lemma handle_timeout_decrement (m : Nat) (t : Int) (ht : 1 ≤ t) :
    handle_timeout (m : Int) ⟨false, some t⟩ = ⟨false, some (t - 1)⟩ := by
  rw [handle_timeout, if_neg (by simp), if_neg (by rw [MIN_HOSTS_ALL]; omega)]
  show (if t < 1 then _ else _) = _
  rw [if_neg (by omega)]

lemma handle_timeout_abort (m : Nat) (t : Int) (ht : t < 1) :
    handle_timeout (m : Int) ⟨false, some t⟩ = ⟨true, some t⟩ := by
  rw [handle_timeout, if_neg (by simp), if_neg (by rw [MIN_HOSTS_ALL]; omega)]
  show (if t < 1 then _ else _) = _
  rw [if_pos ht]

end Sched

/-- C1: contrary to the claim, a listener that terminates without a normal
DONE never marks its unanswered commands (TIMEOUT, empty): because
TestConfig.init pre-populates the target's results dictionary with every
command mapped to None, the membership test in update_incomplete_and_print
always succeeds and the function leaves the dictionary unchanged, so a
command with no received result keeps the value None, which is not one of
SUCCESS, ERROR, TIMEOUT, KILLED. -/
theorem c1_incomplete_never_marked :
    (∀ (message : String) (specs : List String),
      Sched.update_incomplete_and_print message specs (Sched.initResults specs) =
        Sched.initResults specs) ∧
    Sched.update_incomplete_and_print Agent.TIMEOUT_STATUS ["c"]
        (Sched.initResults ["c"]) = [("c", none)] := by
  have hfix : ∀ (message : String) (specs : List String),
      Sched.update_incomplete_and_print message specs (Sched.initResults specs) =
        Sched.initResults specs := by
    intro message specs
    exact Sched.update_incomplete_fixed message specs (Sched.initResults specs)
      (fun c hc => Sched.initResults_any specs c hc)
  exact ⟨hfix, by rw [hfix]; rfl⟩

/-- C5 counterexample: with minHosts equal to the ALL sentinel the counter is
initialized to the sentinel value minus one rather than left unset, and with
minHosts = 1 the first listener failure merely decrements the counter from 1
to 0 without aborting the test, although the claim says the decrement below
1 aborts at once. -/
theorem c5_counterexample :
    Sched.initTimeoutsRemaining Sched.MIN_HOSTS_ALL = some (-1) ∧
    Sched.initTimeoutsRemaining Sched.MIN_HOSTS_ALL ≠ none ∧
    Sched.handle_timeout 1 ⟨false, some 1⟩ = ⟨false, some 0⟩ := by
  refine ⟨rfl, by decide, ?_⟩
  have := Sched.handle_timeout_decrement 1 1 (by omega)
  simpa using this

/-- C5 (amended): timeoutsRemaining is initialized to minHosts whenever
minHosts is nonzero (the ALL sentinel included) and left unset only for 0;
on each failure with the test not yet aborted and a numeric minHosts m at
least 1, the scheduler decrements the counter while it is at least 1 and
aborts only on a failure that finds it below 1, so the k-th failure leaves
the counter at m minus k for k up to m and the test aborts on failure
m plus 1. -/
theorem c5_policy_amended (m : Nat) (hm : 1 ≤ m) :
    Sched.initTimeoutsRemaining (m : Int) = some (m : Int) ∧
    Sched.initTimeoutsRemaining Sched.MIN_HOSTS_ALL = some Sched.MIN_HOSTS_ALL ∧
    (∀ k : Nat, k ≤ m →
      (Sched.handle_timeout (m : Int))^[k] ⟨false, some (m : Int)⟩ =
        ⟨false, some ((m : Int) - (k : Int))⟩) ∧
    (Sched.handle_timeout (m : Int))^[m + 1] ⟨false, some (m : Int)⟩ =
      ⟨true, some 0⟩ := by
  have hiter : ∀ k : Nat, k ≤ m →
      (Sched.handle_timeout (m : Int))^[k] ⟨false, some (m : Int)⟩ =
        ⟨false, some ((m : Int) - (k : Int))⟩ := by
    intro k
    induction k with
    | zero =>
        intro _
        simp
    | succ k ih =>
        intro hk
        rw [Function.iterate_succ_apply', ih (by omega)]
        rw [Sched.handle_timeout_decrement m ((m : Int) - (k : Int)) (by omega)]
        have hmk : (m : Int) - (k : Int) - 1 = (m : Int) - ((k + 1 : Nat) : Int) := by
          omega
        rw [Sched.SessionState.mk.injEq]
        exact ⟨rfl, by rw [hmk]⟩
  refine ⟨?_, rfl, hiter, ?_⟩
  · rw [Sched.initTimeoutsRemaining, if_neg (by omega)]
  · rw [Function.iterate_succ_apply', hiter m (by omega)]
    rw [show (m : Int) - (m : Int) = 0 by ring]
    exact Sched.handle_timeout_abort m 0 (by omega)

/-- Witness for the amended C5 theorem at minHosts = 1: one failure
decrements the counter to 0 and the second failure aborts. -/
theorem c5_policy_amended_witness :
    (Sched.handle_timeout (1 : Nat))^[1 + 1] ⟨false, some ((1 : Nat) : Int)⟩ =
      ⟨true, some 0⟩ :=
  (c5_policy_amended 1 (by omega)).2.2.2

/-- C8 counterexample: with minHosts equal to the ALL sentinel, the very
first SUCCESS already makes successesReceived (now 1) at least the sentinel
minus one, so the STATUS broadcast fires, although the claim says it never
triggers in that case. -/
theorem c8_counterexample :
    (Sched.process_result_success Sched.MIN_HOSTS_ALL 0).2 = true := by decide

/-- C8 (amended): after a SUCCESS result the scheduler broadcasts STATUS
exactly when the incremented successesReceived is at least minHosts; since
the ALL sentinel is minus one, with minHosts ALL the broadcast triggers on
every SUCCESS (any nonnegative prior count), never the claimed never. -/
theorem c8_ping_amended (minHosts successesReceived : Int) :
    ((Sched.process_result_success minHosts successesReceived).2 = true ↔
      successesReceived + 1 ≥ minHosts) ∧
    (0 ≤ successesReceived →
      (Sched.process_result_success Sched.MIN_HOSTS_ALL successesReceived).2 = true) := by
  constructor
  · simp [Sched.process_result_success]
  · intro h
    simp only [Sched.process_result_success, Sched.MIN_HOSTS_ALL, decide_eq_true_iff]
    omega

/-- Witness for the amended C8 theorem: the fourth SUCCESS also pings when
minHosts is ALL. -/
theorem c8_ping_amended_witness :
    (Sched.process_result_success Sched.MIN_HOSTS_ALL 3).2 = true :=
  (c8_ping_amended 0 3).2 (by omega)

/-- C9: in the scheduler's start phase every listener-start event precedes
every START-send event: any index holding a startListener event is strictly
smaller than any index holding a sendStart event in the event list of
start_agents. -/
theorem c9_barrier_start (targets : List String) (i j : Nat)
    (hi : i < (Sched.start_agents targets).length)
    (hj : j < (Sched.start_agents targets).length) (a b : String)
    (h1 : (Sched.start_agents targets)[i] = Sched.StartEvent.startListener a)
    (h2 : (Sched.start_agents targets)[j] = Sched.StartEvent.sendStart b) :
    i < j := by
  have hlenA : (targets.map Sched.StartEvent.startListener).length = targets.length := by
    simp
  have hi' : i < targets.length := by
    by_contra hge
    push_neg at hge
    simp only [Sched.start_agents] at h1
    rw [List.getElem_append_right (by simpa using hge)] at h1
    rw [List.getElem_map] at h1
    cases h1
  have hj' : targets.length ≤ j := by
    by_contra hlt
    push_neg at hlt
    simp only [Sched.start_agents] at h2
    rw [List.getElem_append_left (by simpa using hlt)] at h2
    rw [List.getElem_map] at h2
    cases h2
  omega

/-- Witness for the C9 theorem on a concrete two-target run. -/
theorem c9_barrier_start_witness : (0 : Nat) < 2 :=
  c9_barrier_start ["A", "B"] 0 2 (by decide) (by decide) "A" "A" rfl rfl

/-- C6 counterexample: an agent that echoes the wrong name bytes during prep
makes the scheduler exit the whole process (sys.exit), which is a fatal
outcome and not the test-scoped timeout policy the claim describes. -/
theorem c6_counterexample :
    Sched.prep_exchange (Sched.prep_messages "A" [("c", 0)])
        [Sched.Reply.bytes "name\tB\n"] = Sched.PrepOutcome.fatalExit ∧
    Sched.PrepOutcome.fatalExit ≠ Sched.PrepOutcome.policyTimeout := by
  constructor
  · decide
  · decide

/-- C6 (amended): during prep, after any run of correct echoes, a mismatched
echo terminates the scheduler process (fatal exit), while only a socket
timeout at that point invokes the test's timeout policy; the policy abort
kills already-registered listeners but closes no connections (sockets opened
during prep stay open until the cleanup phase). -/
theorem c6_prep_amended (msgs1 msgs2 : List String) (m s : String)
    (rest : List Sched.Reply) (h : s ≠ m) :
    Sched.prep_exchange (msgs1 ++ m :: msgs2)
        (msgs1.map Sched.Reply.bytes ++ Sched.Reply.bytes s :: rest) =
      Sched.PrepOutcome.fatalExit ∧
    Sched.prep_exchange (msgs1 ++ m :: msgs2)
        (msgs1.map Sched.Reply.bytes ++ Sched.Reply.rtimeout :: rest) =
      Sched.PrepOutcome.policyTimeout := by
  induction msgs1 with
  | nil =>
      constructor
      · simp only [List.nil_append, List.map_nil, Sched.prep_exchange]
        rw [if_neg h]
      · rfl
  | cons a as ih =>
      constructor
      · simp only [List.cons_append, List.map_cons, Sched.prep_exchange, if_pos rfl]
        exact ih.1
      · simp only [List.cons_append, List.map_cons, Sched.prep_exchange, if_pos rfl]
        exact ih.2

/-- Witness for the amended C6 theorem: a socket timeout on the first record
of a concrete prep exchange lands in the timeout policy. -/
theorem c6_prep_amended_witness :
    Sched.prep_exchange ("name\tA\n" :: ["// READY //\n"]) [Sched.Reply.rtimeout] =
      Sched.PrepOutcome.policyTimeout :=
  (c6_prep_amended [] ["// READY //\n"] "name\tA\n" "x" [] (by decide)).2

